import Mathlib

/-!
# SubscribeTester: the two ZeroMQ subscriber test clients

A shallow embedding of the receive loops of

* `SubscribeTester/sub_client.c` (called Variant A below): one frame per
  iteration, copied into a fixed `char string[1000]`, NUL-terminated and
  printed with `printf("%s")`, followed by `...` or a newline;
* `SubscribeTester/zmq_sub_client.cpp` (Variant B): two frames per
  iteration, printed as `[address] contents` and a newline.

The transport is not modelled: the frames that `zmq_msg_recv` / `s_recv`
deliver are the input, given as a finite list (a prefix of the endless stream),
and the bytes written to standard output are the result.  The stack buffer is
a list of bytes with Option-returning stores, so that an access outside the
array is a visible `none` instead of undefined behaviour.
-/

namespace SubscribeTester

/-! ## Data model -/

/-- One byte of a payload, of the buffer or of the output. -/
abbrev Byte := Fin 256

/-- The bytes of an ASCII string literal of the source. -/
def ascii (s : String) : List Byte :=
  s.toList.map (fun c => Fin.ofNat c.toNat)

/-- A received message frame: its payload (`zmq_msg_data`, `zmq_msg_size`) and
the value `ZMQ_RCVMORE` reports after it was received. -/
structure Frame where
  payload : List Byte
  more : Bool
deriving DecidableEq, Repr

/-! ## Variant A: `sub_client.c` -/

/-- The initial buffer, `char string[1000] = ""`: a thousand zero bytes. -/
def string0 : List Byte := List.replicate 1000 0

/-- Conversion of a `size_t` to `int` (`int size = zmq_msg_size (&in_msg)`):
the low 32 bits, read as a two's complement number. -/
def toInt (n : Nat) : Int :=
  if n % 2 ^ 32 < 2 ^ 31 then ((n % 2 ^ 32 : Nat) : Int)
  else ((n % 2 ^ 32 : Nat) : Int) - 2 ^ 32

/-- Conversion of an `int` to `size_t` (the third argument of `memcpy`):
the value modulo `2 ^ 64`. -/
def toSizeT (i : Int) : Nat := (i % 2 ^ 64).toNat

/-- One store `string[i] = b` at a non-negative index; `none` when the index is
outside the array. -/
def poke (string : List Byte) (i : Nat) (b : Byte) : Option (List Byte) :=
  if i < string.length then some (string.set i b) else none

/-- The body of `memcpy`: `k` more bytes are to be copied, the next one from
`src[i]` to `dst[i]`.  `none` when a read or a store falls outside its array. -/
def memcpyLoop (dst src : List Byte) (i : Nat) : Nat → Option (List Byte)
  | 0 => some dst
  | k + 1 =>
    match src[i]? with
    | none => none
    | some b =>
      match poke dst i b with
      | none => none
      | some dst1 => memcpyLoop dst1 src (i + 1) k

/-- The call `memcpy(string, zmq_msg_data(&in_msg), size)`. -/
def memcpy (dst src : List Byte) (n : Nat) : Option (List Byte) :=
  memcpyLoop dst src 0 n

/-- The store `string[size] = 0` with an `int` index. -/
def pokeInt (string : List Byte) (i : Int) (b : Byte) : Option (List Byte) :=
  if i < 0 then none else poke string i.toNat b

/-- What `printf("%s", string)` writes: the bytes before the first zero byte;
`none` when the array holds no zero byte (the read runs off its end). -/
def cstring : List Byte → Option (List Byte)
  | [] => none
  | b :: bs =>
    if b = 0 then some []
    else
      match cstring bs with
      | none => none
      | some t => some (b :: t)

/-- What follows the payload text: `printf("...")` when `more` is set,
`printf("\n")` otherwise. -/
def marker (more : Bool) : List Byte :=
  if more then ascii "..." else ascii "\n"

/-- One iteration of the `while(1)` loop of `sub_client.c` on the received
frame `f`, from the buffer content `string`: the new buffer content and the
bytes written to standard output; `none` when an access leaves the buffer. -/
def iterA (string : List Byte) (f : Frame) : Option (List Byte × List Byte) :=
  let more := f.more
  let size : Int := toInt f.payload.length
  match memcpy string f.payload (toSizeT size) with
  | none => none
  | some s1 =>
    match pokeInt s1 size 0 with
    | none => none
    | some s2 =>
      match cstring s2 with
      | none => none
      | some text => some (s2, text ++ marker more)

/-- The indices of `string` that one iteration stores to, in order: those of
the `memcpy` (`0 .. size - 1` as a `size_t` count) and the one of
`string[size] = 0`. -/
def writesA (f : Frame) : List Int :=
  let size : Int := toInt f.payload.length
  (List.range (toSizeT size)).map Int.ofNat ++ [size]

/-- The loop of `sub_client.c` over the frames that arrive, from the buffer
content `string`: the final buffer content and everything written. -/
def runA (string : List Byte) : List Frame → Option (List Byte × List Byte)
  | [] => some (string, [])
  | f :: fs =>
    match iterA string f with
    | none => none
    | some (s1, o1) =>
      match runA s1 fs with
      | none => none
      | some (s2, o2) => some (s2, o1 ++ o2)

/-- The program `sub_client.c` as a function from the arriving frames to the
text on standard output. -/
def mainA (frames : List Frame) : Option (List Byte) :=
  (runA string0 frames).map Prod.snd

/-- A logical message: at least one frame, `more` set on every frame but the
last. -/
def isLogicalMessage : List Frame → Bool
  | [] => false
  | [f] => !f.more
  | f :: g :: fs => f.more && isLogicalMessage (g :: fs)

/-! ## Variant B: `zmq_sub_client.cpp` -/

/-- Modelled from the spec: `s_recv` of `zhelpers.hpp`, which is not among the
sources.  It takes the next frame off the socket and returns its payload,
decoded as a string; on an exhausted stream it blocks, which is `none` here. -/
def s_recv : List Frame → Option (List Byte × List Frame)
  | [] => none
  | f :: rest => some (f.payload, rest)

/-- One iteration of the `while (1)` loop of `zmq_sub_client.cpp`: the line
written and the frames still waiting; `none` when a receive blocks. -/
def iterB (stream : List Frame) : Option (List Byte × List Frame) :=
  match s_recv stream with
  | none => none
  | some (address, stream1) =>
    match s_recv stream1 with
    | none => none
    | some (contents, stream2) =>
      some (ascii "[" ++ address ++ ascii "] " ++ contents ++ ascii "\n", stream2)

/-- The loop of `zmq_sub_client.cpp` over the frames that arrive: everything
written before a receive blocks for want of a frame. -/
def mainB (stream : List Frame) : List Byte :=
  match h : iterB stream with
  | none => []
  | some (o, stream2) => o ++ mainB stream2
termination_by stream.length
decreasing_by
  cases stream with
  | nil => simp [iterB, s_recv] at h
  | cons a t =>
    cases t with
    | nil => simp [iterB, s_recv] at h
    | cons c rest =>
      simp only [iterB, s_recv, Option.some.injEq, Prod.mk.injEq] at h
      rw [← h.2]
      simp only [List.length_cons]
      omega

/-! ## Closed forms used in the statements -/

/-- The closed form of what one iteration of Variant A writes for a frame that
fits the buffer (established in `iterA_eq`): the payload up to its first zero
byte, then the marker. -/
def textA (f : Frame) : List Byte :=
  f.payload.takeWhile (fun b => b != 0) ++ marker f.more

/-- The line `[address] contents` and a newline. -/
def lineB (address contents : List Byte) : List Byte :=
  ascii "[" ++ address ++ ascii "] " ++ contents ++ ascii "\n"

/-- The text `address...contents` and a newline, which Variant A writes for a
two-frame logical message. -/
def lineA (address contents : List Byte) : List Byte :=
  address ++ ascii "..." ++ contents ++ ascii "\n"

/-- The payload of the frame at position `i` of a stream (empty past its end). -/
def payloadAt (stream : List Frame) (i : Nat) : List Byte :=
  match stream[i]? with
  | some f => f.payload
  | none => []

/-- A stream made of two-frame logical messages only: `more` set on the first
frame of each pair and clear on the second. -/
def twoFrameStream : List Frame → Bool
  | [] => true
  | [_] => false
  | a :: c :: rest => a.more && !c.more && twoFrameStream rest

/-! ## Lemmas on the buffer model -/

theorem toInt_of_lt {n : Nat} (h : n < 2 ^ 31) : toInt n = (n : Int) := by
  have h1 : n % 2 ^ 32 = n := Nat.mod_eq_of_lt (by omega)
  simp only [toInt, h1]
  rw [if_pos h]

theorem toSizeT_natCast {n : Nat} (h : n < 2 ^ 64) : toSizeT (n : Int) = n := by
  unfold toSizeT
  omega

theorem poke_length {s s1 : List Byte} {i : Nat} {b : Byte}
    (h : poke s i b = some s1) : s1.length = s.length := by
  unfold poke at h
  split at h
  · simp only [Option.some.injEq] at h
    rw [← h, List.length_set]
  · exact absurd h (by simp)

theorem memcpyLoop_append (smid : List Byte) :
    ∀ (pre mid post spre spost : List Byte),
      pre.length = spre.length → mid.length = smid.length →
      memcpyLoop (pre ++ mid ++ post) (spre ++ smid ++ spost) pre.length smid.length
        = some (pre ++ smid ++ post) := by
  induction smid with
  | nil =>
    intro pre mid post spre spost _ hm
    have : mid = [] := List.length_eq_zero.mp hm
    subst this
    simp [memcpyLoop]
  | cons b smid ih =>
    intro pre mid post spre spost hp hm
    match mid, hm with
    | m :: mid, hm =>
      have hsrc : (spre ++ b :: smid ++ spost)[pre.length]? = some b := by
        rw [hp, List.append_assoc, List.getElem?_append_right (le_refl _)]
        simp
      have hpoke : poke (pre ++ m :: mid ++ post) pre.length b
          = some ((pre ++ [b]) ++ mid ++ post) := by
        simp [poke]
      simp only [List.length_cons, memcpyLoop, hsrc, hpoke]
      have := ih (pre ++ [b]) mid post (spre ++ [b]) spost (by simp [hp])
        (by simpa using hm)
      simpa using this

theorem memcpy_eq {dst src : List Byte} {n : Nat}
    (hs : n ≤ src.length) (hd : n ≤ dst.length) :
    memcpy dst src n = some (src.take n ++ dst.drop n) := by
  have := memcpyLoop_append (src.take n) [] (dst.take n) (dst.drop n) [] (src.drop n)
    rfl (by simp [List.length_take, hs, hd])
  simpa [memcpy, List.length_take, hs] using this

theorem memcpyLoop_none (src : List Byte) :
    ∀ (k : Nat) (dst : List Byte) (i : Nat), 0 < k → dst.length < i + k →
      memcpyLoop dst src i k = none := by
  intro k
  induction k with
  | zero => intro dst i h0 h; omega
  | succ k ih =>
    intro dst i _ h
    unfold memcpyLoop
    split
    · rfl
    · split
      · rfl
      · next dst1 hp =>
        have hlen := poke_length hp
        have hi : i < dst.length := by
          unfold poke at hp
          by_contra hc
          rw [if_neg hc] at hp
          exact absurd hp (by simp)
        exact ih dst1 (i + 1) (by omega) (by omega)

theorem cstring_append_zero (p rest : List Byte) :
    cstring (p ++ 0 :: rest) = some (p.takeWhile (fun b => b != 0)) := by
  induction p with
  | nil => simp [cstring]
  | cons b p ih =>
    by_cases hb : b = 0
    · simp [cstring, hb]
    · simp [cstring, hb, ih]

/-- What one iteration of Variant A does to a frame shorter than the buffer:
the buffer then holds the payload, a zero byte and its old tail, and the text
written is the payload up to its first zero byte, then the marker. -/
theorem iterA_eq {string : List Byte} (f : Frame)
    (hs : string.length = 1000) (hf : f.payload.length < 1000) :
    iterA string f
      = some (f.payload ++ 0 :: string.drop (f.payload.length + 1),
              f.payload.takeWhile (fun b => b != 0) ++ marker f.more) := by
  have h1 : toInt f.payload.length = (f.payload.length : Int) :=
    toInt_of_lt (by omega)
  have h2 : toSizeT (f.payload.length : Int) = f.payload.length :=
    toSizeT_natCast (by omega)
  have h3 : memcpy string f.payload f.payload.length
      = some (f.payload ++ string.drop f.payload.length) := by
    rw [memcpy_eq (le_refl _) (by omega), List.take_length]
  have h4 : pokeInt (f.payload ++ string.drop f.payload.length) (f.payload.length : Int) 0
      = some (f.payload ++ 0 :: string.drop (f.payload.length + 1)) := by
    have hlt : f.payload.length < string.length := by omega
    have hd : string.drop f.payload.length
        = string[f.payload.length] :: string.drop (f.payload.length + 1) :=
      List.drop_eq_getElem_cons hlt
    simp only [pokeInt, poke, Int.toNat_ofNat, List.length_append, List.length_drop]
    rw [if_neg (by omega), if_pos (by omega), hd]
    simp only [List.set_append, lt_irrefl, if_false, Nat.sub_self, List.set_cons_zero]
  simp only [iterA, h1, h2, h3, h4, cstring_append_zero]

theorem iterA_length {string s1 o : List Byte} {f : Frame}
    (hs : string.length = 1000) (hf : f.payload.length < 1000)
    (h : iterA string f = some (s1, o)) : s1.length = 1000 := by
  rw [iterA_eq f hs hf] at h
  simp only [Option.some.injEq, Prod.mk.injEq] at h
  rw [← h.1]
  simp only [List.length_append, List.length_cons, List.length_drop]
  omega

/-- The loop of Variant A on frames that all fit the buffer: it does not fail,
the buffer keeps its size, and the text is that of the frames in order. -/
theorem runA_eq (frames : List Frame) :
    ∀ (string : List Byte), string.length = 1000 →
      (∀ f ∈ frames, f.payload.length < 1000) →
      ∃ s1, s1.length = 1000 ∧ runA string frames = some (s1, frames.flatMap textA) := by
  induction frames with
  | nil => intro string hs _; exact ⟨string, hs, rfl⟩
  | cons f fs ih =>
    intro string hs hf
    have hf0 : f.payload.length < 1000 := hf f (List.mem_cons_self _ _)
    have h1 : iterA string f = _ := iterA_eq f hs hf0
    obtain ⟨s2, hs2, h2⟩ := ih _ (iterA_length hs hf0 h1)
      (fun g hg => hf g (List.mem_cons_of_mem _ hg))
    refine ⟨s2, hs2, ?_⟩
    simp only [runA, h1, h2, List.flatMap_cons, textA]

theorem string0_length : string0.length = 1000 :=
  List.length_replicate 1000 0

theorem mainA_eq (frames : List Frame) (hf : ∀ f ∈ frames, f.payload.length < 1000) :
    mainA frames = some (frames.flatMap textA) := by
  obtain ⟨s1, _, h⟩ := runA_eq frames string0 string0_length hf
  simp [mainA, h]

theorem takeWhile_nonzero_eq_self {p : List Byte} (h : (0 : Byte) ∉ p) :
    p.takeWhile (fun b => b != 0) = p := by
  rw [List.takeWhile_eq_self_iff]
  intro x hx
  have : x ≠ 0 := fun hx0 => h (hx0 ▸ hx)
  simpa using this

/-! ## Lemmas on the loop of Variant B -/

theorem mainB_nil : mainB [] = [] := by
  rw [mainB]; rfl

theorem mainB_singleton (f : Frame) : mainB [f] = [] := by
  rw [mainB]; rfl

theorem mainB_cons_cons (a c : Frame) (rest : List Frame) :
    mainB (a :: c :: rest) = lineB a.payload c.payload ++ mainB rest := by
  rw [mainB]; rfl

/-! ## Variant A on one logical message -/

theorem flatMap_logicalMessage (frames : List Frame)
    (hmsg : isLogicalMessage frames = true) :
    frames.flatMap (fun f => f.payload ++ marker f.more)
      = List.intercalate (ascii "...") (frames.map Frame.payload) ++ ascii "\n" := by
  induction frames with
  | nil => simp [isLogicalMessage] at hmsg
  | cons f fs ih =>
    cases fs with
    | nil =>
      simp only [isLogicalMessage, Bool.not_eq_true'] at hmsg
      simp [marker, hmsg, List.intercalate]
    | cons g gs =>
      simp only [isLogicalMessage, Bool.and_eq_true] at hmsg
      have := ih hmsg.2
      simp only [List.flatMap_cons, List.map_cons, List.intercalate, List.intersperse,
        List.flatten_cons, List.append_assoc] at this ⊢
      rw [this]
      simp [marker, hmsg.1]

theorem flatMap_textA_of_nonzero (frames : List Frame)
    (hnz : ∀ f ∈ frames, (0 : Byte) ∉ f.payload) :
    frames.flatMap textA = frames.flatMap (fun f => f.payload ++ marker f.more) := by
  induction frames with
  | nil => rfl
  | cons f fs ih =>
    simp only [List.flatMap_cons, textA]
    rw [takeWhile_nonzero_eq_self (hnz f (List.mem_cons_self _ _)),
      ← ih (fun g hg => hnz g (List.mem_cons_of_mem _ hg))]

/-- C1. Variant A as a function from the arriving frames to the text on
standard output: for every logical message (at least one frame, `more` set on
every frame but the last) whose payloads are shorter than 1000 bytes and hold
no zero byte, the output is the payloads in arrival order joined by `...`,
followed by exactly one newline. -/
theorem variantA_logical_message (frames : List Frame)
    (hmsg : isLogicalMessage frames = true)
    (hlen : ∀ f ∈ frames, f.payload.length < 1000)
    (hnz : ∀ f ∈ frames, (0 : Byte) ∉ f.payload) :
    mainA frames
      = some (List.intercalate (ascii "...") (frames.map Frame.payload) ++ ascii "\n") := by
  rw [mainA_eq frames hlen, flatMap_textA_of_nonzero frames hnz,
    flatMap_logicalMessage frames hmsg]

/-- The two examples of C1: the single frame `hello` gives `hello` and a
newline; the frames `A` (more) and `B` (last) give `A...B` and a newline. -/
theorem variantA_logical_message_witness :
    mainA [⟨ascii "hello", false⟩] = some (ascii "hello\n")
    ∧ mainA [⟨ascii "A", true⟩, ⟨ascii "B", false⟩] = some (ascii "A...B\n") :=
  ⟨(variantA_logical_message [⟨ascii "hello", false⟩]
      (by decide) (by decide) (by decide)).trans (by decide),
   (variantA_logical_message [⟨ascii "A", true⟩, ⟨ascii "B", false⟩]
      (by decide) (by decide) (by decide)).trans (by decide)⟩

/-! ## Variant B on one pair of frames -/

/-- C2. One iteration of Variant B on two consecutive frames (address,
contents) writes exactly `[` ++ address ++ `] ` ++ contents ++ newline and
leaves the frames after them waiting; so the loop writes that line first.
For `topic1`, `payload1` the line is `[topic1] payload1` and a newline. -/
theorem variantB_pair :
    (∀ (address contents : Frame) (rest : List Frame),
      iterB (address :: contents :: rest)
        = some (ascii "[" ++ address.payload ++ ascii "] " ++ contents.payload
                  ++ ascii "\n", rest)
      ∧ mainB (address :: contents :: rest)
        = ascii "[" ++ address.payload ++ ascii "] " ++ contents.payload
            ++ ascii "\n" ++ mainB rest)
    ∧ (∀ m1 m2 : Bool,
        mainB [⟨ascii "topic1", m1⟩, ⟨ascii "payload1", m2⟩]
          = ascii "[topic1] payload1\n") := by
  refine ⟨fun address contents rest => ⟨rfl, ?_⟩, fun m1 m2 => ?_⟩
  · rw [mainB_cons_cons]; rfl
  · rw [mainB_cons_cons, mainB_nil]
    show lineB (ascii "topic1") (ascii "payload1") ++ [] = ascii "[topic1] payload1\n"
    decide

/-! ## Replay, the empty frame, oversize frames, concatenation (Variant A) -/

/-- C3. Replay idempotence of Variant A: for every buffer content and every
sequence of frames shorter than 1000 bytes (so for every logical message),
rendering the sequence and then rendering it again, from the buffer the first
pass left, succeeds and writes the same text both times; and the text written
for one frame is the same from any two buffer contents, so it depends on the
frame alone. -/
theorem variantA_replay_idempotent (string : List Byte) (msg : List Frame)
    (hs : string.length = 1000) (hlen : ∀ f ∈ msg, f.payload.length < 1000) :
    (∃ s1 s2 o, runA string msg = some (s1, o) ∧ runA s1 msg = some (s2, o))
    ∧ (∀ f ∈ msg, ∀ b1 b2 : List Byte, b1.length = 1000 → b2.length = 1000 →
        ∃ o, (iterA b1 f).map Prod.snd = some o ∧ (iterA b2 f).map Prod.snd = some o) := by
  constructor
  · obtain ⟨s1, hs1, h1⟩ := runA_eq msg string hs hlen
    obtain ⟨s2, _, h2⟩ := runA_eq msg s1 hs1 hlen
    exact ⟨s1, s2, _, h1, h2⟩
  · intro f hf b1 b2 hb1 hb2
    refine ⟨textA f, ?_, ?_⟩
    · rw [iterA_eq f hb1 (hlen f hf)]; rfl
    · rw [iterA_eq f hb2 (hlen f hf)]; rfl

/-- C3 at the initial buffer and the message `A` (more), `B` (last). -/
theorem variantA_replay_idempotent_witness :
    (∃ s1 s2 o, runA string0 [⟨ascii "A", true⟩, ⟨ascii "B", false⟩] = some (s1, o)
        ∧ runA s1 [⟨ascii "A", true⟩, ⟨ascii "B", false⟩] = some (s2, o))
    ∧ (∀ f ∈ [(⟨ascii "A", true⟩ : Frame), ⟨ascii "B", false⟩],
        ∀ b1 b2 : List Byte, b1.length = 1000 → b2.length = 1000 →
        ∃ o, (iterA b1 f).map Prod.snd = some o ∧ (iterA b2 f).map Prod.snd = some o) :=
  variantA_replay_idempotent string0 [⟨ascii "A", true⟩, ⟨ascii "B", false⟩]
    string0_length (by decide)

/-- C4. A frame with a zero-length payload. In Variant A the iteration
succeeds, the only store is the terminator at index 0 (the buffer is otherwise
unchanged), and the text written is the empty string followed by `...` when
`more` is set and by a newline otherwise. In Variant B an empty address gives
`[] ` ++ contents ++ newline and an empty contents frame gives
`[` ++ address ++ `] ` ++ newline. -/
theorem zero_length_frame (string : List Byte) (hs : string.length = 1000) :
    (∀ more : Bool,
      iterA string ⟨[], more⟩ = some (string.set 0 0, [] ++ marker more)
      ∧ writesA ⟨[], more⟩ = [0])
    ∧ marker true = ascii "..." ∧ marker false = ascii "\n"
    ∧ (∀ (c : Frame) (m : Bool) (rest : List Frame),
        iterB (⟨[], m⟩ :: c :: rest) = some (ascii "[] " ++ c.payload ++ ascii "\n", rest))
    ∧ (∀ (a : Frame) (m : Bool) (rest : List Frame),
        iterB (a :: ⟨[], m⟩ :: rest)
          = some (ascii "[" ++ a.payload ++ ascii "] " ++ [] ++ ascii "\n", rest)) := by
  refine ⟨fun more => ⟨?_, ?_⟩, rfl, rfl, fun c m rest => rfl, fun a m rest => rfl⟩
  · rw [iterA_eq ⟨[], more⟩ hs (by simp)]
    match string, hs with
    | x :: tl, _ => rfl
  · simp [writesA, toInt, toSizeT]

/-- C4 at the initial buffer. -/
theorem zero_length_frame_witness :
    string0.length = 1000
    ∧ iterA string0 ⟨[], true⟩ = some (string0.set 0 0, [] ++ marker true)
    ∧ iterA string0 ⟨[], false⟩ = some (string0.set 0 0, [] ++ marker false) :=
  ⟨string0_length, ((zero_length_frame string0 string0_length).1 true).1,
    ((zero_length_frame string0 string0_length).1 false).1⟩

/-- One iteration of Variant A on a frame of at least 1000 bytes (and fewer
than `2 ^ 31`) leaves the buffer: the model has no result. -/
theorem iterA_none_of_ge {string : List Byte} (f : Frame)
    (hs : string.length = 1000) (h1 : 1000 ≤ f.payload.length)
    (h2 : f.payload.length < 2 ^ 31) : iterA string f = none := by
  have e1 : toInt f.payload.length = (f.payload.length : Int) := toInt_of_lt h2
  have e2 : toSizeT (f.payload.length : Int) = f.payload.length :=
    toSizeT_natCast (by omega)
  by_cases hgt : 1000 < f.payload.length
  · have : memcpy string f.payload f.payload.length = none :=
      memcpyLoop_none _ _ _ _ (by omega) (by omega)
    simp only [iterA, e1, e2, this]
  · have hm : memcpy string f.payload f.payload.length = _ :=
      memcpy_eq (le_refl _) (by omega)
    have hp : pokeInt (List.take f.payload.length f.payload
        ++ List.drop f.payload.length string) (f.payload.length : Int) 0 = none := by
      simp only [pokeInt, poke, Int.toNat_ofNat, List.length_append, List.length_take,
        List.length_drop]
      rw [if_neg (by omega), if_neg (by omega)]
    simp only [iterA, e1, e2, hm, hp]

/-- C5, the code at a frame of exactly 1000 bytes (`A` a thousand times): the
`memcpy` fills the whole buffer, the terminator store `string[1000] = 0` is at
index 1000, outside the 1000-byte buffer, and the iteration has no defined
result. -/
theorem oversize_frame_leaves_buffer :
    memcpy string0 (List.replicate 1000 65) 1000 = some (List.replicate 1000 65)
    ∧ pokeInt (List.replicate 1000 65) 1000 0 = none
    ∧ (1000 : Int) ∈ writesA ⟨List.replicate 1000 65, false⟩
    ∧ iterA string0 ⟨List.replicate 1000 65, false⟩ = none := by
  refine ⟨?_, ?_, ?_, ?_⟩
  · rw [memcpy_eq (by rw [List.length_replicate]) (by rw [string0_length])]
    have h1 : List.take 1000 (List.replicate 1000 (65 : Byte)) = List.replicate 1000 65 :=
      List.take_of_length_le (by rw [List.length_replicate])
    have h2 : List.drop 1000 string0 = [] :=
      List.drop_of_length_le (by rw [string0_length])
    rw [h1, h2, List.append_nil]
  · simp only [pokeInt, poke, List.length_replicate]
    rfl
  · have e : toInt (List.replicate 1000 (65 : Byte)).length = 1000 := by
      rw [List.length_replicate]; exact toInt_of_lt (by norm_num)
    simp only [writesA, e]
    exact List.mem_append_right _ (List.mem_singleton_self _)
  · exact iterA_none_of_ge _ string0_length (by rw [List.length_replicate])
      (by rw [List.length_replicate]; norm_num)

/-- C6. Order and contiguity in Variant A: for frame sequences `xs` and `ys`
with payloads shorter than 1000 bytes, the program succeeds on `xs`, on `ys`
and on `xs ++ ys`, and the text for `xs ++ ys` is the text for `xs` followed by
the text for `ys`; each text is the frames' texts in arrival order. -/
theorem variantA_append (xs ys : List Frame)
    (h : ∀ f ∈ xs ++ ys, f.payload.length < 1000) :
    ∃ ox oy, mainA xs = some ox ∧ mainA ys = some oy
      ∧ mainA (xs ++ ys) = some (ox ++ oy)
      ∧ ox = xs.flatMap textA ∧ oy = ys.flatMap textA := by
  refine ⟨xs.flatMap textA, ys.flatMap textA, ?_, ?_, ?_, rfl, rfl⟩
  · exact mainA_eq xs (fun f hf => h f (List.mem_append_left _ hf))
  · exact mainA_eq ys (fun f hf => h f (List.mem_append_right _ hf))
  · rw [mainA_eq _ h, List.flatMap_append]

/-- C6 at the message `A` (more), `B` (last) followed by the message `hello`. -/
theorem variantA_append_witness :
    ∃ ox oy, mainA [⟨ascii "A", true⟩, ⟨ascii "B", false⟩] = some ox
      ∧ mainA [⟨ascii "hello", false⟩] = some oy
      ∧ mainA ([⟨ascii "A", true⟩, ⟨ascii "B", false⟩] ++ [⟨ascii "hello", false⟩])
          = some (ox ++ oy)
      ∧ ox = [(⟨ascii "A", true⟩ : Frame), ⟨ascii "B", false⟩].flatMap textA
      ∧ oy = [(⟨ascii "hello", false⟩ : Frame)].flatMap textA :=
  variantA_append [⟨ascii "A", true⟩, ⟨ascii "B", false⟩] [⟨ascii "hello", false⟩]
    (by decide)

/-! ## Streams read two frames at a time -/

theorem payloadAt_cons_cons (a c : Frame) (rest : List Frame) (i : Nat) :
    payloadAt (a :: c :: rest) (i + 2) = payloadAt rest i := by
  simp only [payloadAt, List.getElem?_cons_succ]

/-- The lines of the pairs at positions `(0, 1), (2, 3), ...` of a stream,
unfolded at its first pair. -/
theorem flatMap_pairs_cons_cons (g : List Byte → List Byte → List Byte)
    (a c : Frame) (rest : List Frame) :
    (List.range ((a :: c :: rest).length / 2)).flatMap
        (fun i => g (payloadAt (a :: c :: rest) (2 * i)) (payloadAt (a :: c :: rest) (2 * i + 1)))
      = g a.payload c.payload
        ++ (List.range (rest.length / 2)).flatMap
            (fun i => g (payloadAt rest (2 * i)) (payloadAt rest (2 * i + 1))) := by
  have hlen : (a :: c :: rest).length / 2 = rest.length / 2 + 1 := by
    simp only [List.length_cons]; omega
  rw [hlen, List.range_succ_eq_map, List.flatMap_cons, List.flatMap_map]
  have h0 : g (payloadAt (a :: c :: rest) (2 * 0)) (payloadAt (a :: c :: rest) (2 * 0 + 1))
      = g a.payload c.payload := by
    simp [payloadAt]
  refine congrArg₂ (fun x y => x ++ y) h0 ?_
  refine congrArg (List.flatMap (List.range (rest.length / 2))) (funext fun i => ?_)
  have e1 : 2 * Nat.succ i = 2 * i + 2 := by omega
  have e2 : 2 * i + 2 + 1 = (2 * i + 1) + 2 := by omega
  show g (payloadAt (a :: c :: rest) (2 * Nat.succ i))
      (payloadAt (a :: c :: rest) (2 * Nat.succ i + 1)) = _
  rw [e1, e2, payloadAt_cons_cons, payloadAt_cons_cons]

theorem mainB_eq_range : ∀ (stream : List Frame),
    mainB stream = (List.range (stream.length / 2)).flatMap
      (fun i => lineB (payloadAt stream (2 * i)) (payloadAt stream (2 * i + 1)))
  | [] => by rw [mainB_nil]; rfl
  | [f] => by rw [mainB_singleton]; simp
  | a :: c :: rest => by
    rw [mainB_cons_cons, mainB_eq_range rest, flatMap_pairs_cons_cons]

theorem mainB_payloads : ∀ (s1 s2 : List Frame),
    s1.map Frame.payload = s2.map Frame.payload → mainB s1 = mainB s2
  | [], [], _ => rfl
  | [], _ :: _, h => by simp at h
  | _ :: _, [], h => by simp at h
  | [f], [g], _ => by rw [mainB_singleton, mainB_singleton]
  | [_], _ :: _ :: _, h => by simp at h
  | _ :: _ :: _, [_], h => by simp at h
  | a :: c :: r1, b :: d :: r2, h => by
    simp only [List.map_cons, List.cons.injEq] at h
    rw [mainB_cons_cons, mainB_cons_cons, h.1, h.2.1, mainB_payloads r1 r2 h.2.2]

theorem mainB_append_singleton : ∀ (stream : List Frame) (f : Frame),
    stream.length % 2 = 0 → mainB (stream ++ [f]) = mainB stream
  | [], f, _ => by rw [List.nil_append, mainB_singleton, mainB_nil]
  | [_], _, h => by simp at h
  | a :: c :: rest, f, h => by
    have h2 : rest.length % 2 = 0 := by
      simp only [List.length_cons] at h; omega
    rw [List.cons_append, List.cons_append, mainB_cons_cons, mainB_cons_cons,
      mainB_append_singleton rest f h2]

theorem flatMap_twoFrameStream : ∀ (frames : List Frame),
    twoFrameStream frames = true →
    frames.flatMap (fun f => f.payload ++ marker f.more)
      = (List.range (frames.length / 2)).flatMap
          (fun i => lineA (payloadAt frames (2 * i)) (payloadAt frames (2 * i + 1)))
  | [], _ => rfl
  | [_], h => by simp [twoFrameStream] at h
  | a :: c :: rest, h => by
    simp only [twoFrameStream, Bool.and_eq_true, Bool.not_eq_true'] at h
    rw [flatMap_pairs_cons_cons, ← flatMap_twoFrameStream rest h.2]
    simp only [List.flatMap_cons, marker, h.1.1, h.1.2, lineA, if_true, List.append_assoc]
    rfl

theorem lineA_ne_lineB (a c ra rb : List Byte) :
    lineA a c ++ ra ≠ lineB a c ++ rb := by
  intro h
  have hl : (a ++ ascii "...") ++ (c ++ ascii "\n" ++ ra)
      = (ascii "[" ++ a ++ ascii "] ") ++ (c ++ ascii "\n" ++ rb) := by
    simpa only [lineA, lineB, List.append_assoc] using h
  have h1 := congrArg (List.take (a.length + 3)) hl
  rw [List.take_left' (by simp [ascii]), List.take_left' (by simp [ascii])] at h1
  have h2 := congrArg List.getLast? h1
  have e1 : (ascii "...").getLast? = some 46 := by decide
  have e2 : (ascii "] ").getLast? = some 32 := by decide
  rw [List.getLast?_append, List.getLast?_append, e1, e2] at h2
  simp only [Option.or_some, Option.some.injEq] at h2
  exact absurd h2 (by decide)

theorem mainA_twoFrameStream (frames : List Frame)
    (h2 : twoFrameStream frames = true)
    (hlen : ∀ f ∈ frames, f.payload.length < 1000)
    (hnz : ∀ f ∈ frames, (0 : Byte) ∉ f.payload) :
    mainA frames = some ((List.range (frames.length / 2)).flatMap
      (fun i => lineA (payloadAt frames (2 * i)) (payloadAt frames (2 * i + 1)))) := by
  rw [mainA_eq frames hlen, flatMap_textA_of_nonzero frames hnz,
    flatMap_twoFrameStream frames h2]

/-! ## The two variants compared -/

/-- C7 as stated fails: on the two-frame logical message `A` (more), `B` (last)
Variant A writes `A...B` and a newline, Variant B writes `[A] B` and a newline. -/
theorem variants_identical_counterexample :
    twoFrameStream [⟨ascii "A", true⟩, ⟨ascii "B", false⟩] = true
    ∧ mainA [⟨ascii "A", true⟩, ⟨ascii "B", false⟩] = some (ascii "A...B\n")
    ∧ mainB [⟨ascii "A", true⟩, ⟨ascii "B", false⟩] = ascii "[A] B\n"
    ∧ mainA [⟨ascii "A", true⟩, ⟨ascii "B", false⟩]
        ≠ some (mainB [⟨ascii "A", true⟩, ⟨ascii "B", false⟩]) := by
  have hA : mainA [⟨ascii "A", true⟩, ⟨ascii "B", false⟩] = some (ascii "A...B\n") :=
    (mainA_eq _ (by decide)).trans (by decide)
  have hB : mainB [⟨ascii "A", true⟩, ⟨ascii "B", false⟩] = ascii "[A] B\n" := by
    rw [mainB_cons_cons, mainB_nil]
    show lineB (ascii "A") (ascii "B") ++ [] = ascii "[A] B\n"
    decide
  refine ⟨by decide, hA, hB, ?_⟩
  rw [hA, hB]
  decide

/-- C7 amended. On every stream made of two-frame logical messages (payloads
shorter than 1000 bytes, without zero bytes) both variants write one line per
message, carrying the same two payloads in the same order, but in different
formats: Variant A writes address ++ `...` ++ contents ++ newline, Variant B
writes `[` ++ address ++ `] ` ++ contents ++ newline; and on every such stream
that is not empty the two texts differ. -/
theorem variants_differ_in_format (frames : List Frame)
    (h2 : twoFrameStream frames = true)
    (hlen : ∀ f ∈ frames, f.payload.length < 1000)
    (hnz : ∀ f ∈ frames, (0 : Byte) ∉ f.payload) :
    mainA frames = some ((List.range (frames.length / 2)).flatMap
        (fun i => lineA (payloadAt frames (2 * i)) (payloadAt frames (2 * i + 1))))
    ∧ mainB frames = (List.range (frames.length / 2)).flatMap
        (fun i => lineB (payloadAt frames (2 * i)) (payloadAt frames (2 * i + 1)))
    ∧ (frames ≠ [] → mainA frames ≠ some (mainB frames)) := by
  refine ⟨mainA_twoFrameStream frames h2 hlen hnz, mainB_eq_range frames, ?_⟩
  intro hne
  match frames, h2, hlen, hnz, hne with
  | [_], h2, _, _, _ => simp [twoFrameStream] at h2
  | a :: c :: rest, h2, hlen, hnz, _ =>
    rw [mainA_twoFrameStream _ h2 hlen hnz, flatMap_pairs_cons_cons, mainB_cons_cons]
    intro h
    exact lineA_ne_lineB _ _ _ _ (Option.some.inj h)

/-- C7 amended, at the stream of the two messages (`A`, `B`) and (`t`, `p`). -/
theorem variants_differ_in_format_witness :
    mainA [⟨ascii "A", true⟩, ⟨ascii "B", false⟩, ⟨ascii "t", true⟩, ⟨ascii "p", false⟩]
      = some (ascii "A...B\nt...p\n")
    ∧ mainB [⟨ascii "A", true⟩, ⟨ascii "B", false⟩, ⟨ascii "t", true⟩, ⟨ascii "p", false⟩]
      = ascii "[A] B\n[t] p\n" :=
  ⟨(variants_differ_in_format
      [⟨ascii "A", true⟩, ⟨ascii "B", false⟩, ⟨ascii "t", true⟩, ⟨ascii "p", false⟩]
      (by decide) (by decide) (by decide)).1.trans (by decide),
   (variants_differ_in_format
      [⟨ascii "A", true⟩, ⟨ascii "B", false⟩, ⟨ascii "t", true⟩, ⟨ascii "p", false⟩]
      (by decide) (by decide) (by decide)).2.1.trans (by decide)⟩

/-- C9. Variant B pairs frames by position and ignores the `more` flag. For
every stream the text written is the lines `[` ++ f(2i) ++ `] ` ++ f(2i+1) ++
newline for `i = 0, 1, ...` below half the stream length (positions counted
from 0); two streams with the same payloads give the same text whatever their
flags; a trailing unpaired frame writes nothing. So a single-frame message `m`
followed by a two-frame message (`a`, `c`) gives `[m] a` and a newline, `c` is
left waiting, and it becomes the address of the next pair. -/
theorem variantB_pairs_by_position :
    (∀ stream : List Frame,
      mainB stream = (List.range (stream.length / 2)).flatMap
        (fun i => lineB (payloadAt stream (2 * i)) (payloadAt stream (2 * i + 1))))
    ∧ (∀ s1 s2 : List Frame,
        s1.map Frame.payload = s2.map Frame.payload → mainB s1 = mainB s2)
    ∧ (∀ (stream : List Frame) (f : Frame), stream.length % 2 = 0 →
        iterB [f] = none ∧ mainB (stream ++ [f]) = mainB stream)
    ∧ (∀ (m a c : List Byte) (bm ba bc : Bool),
        iterB [⟨m, bm⟩, ⟨a, ba⟩, ⟨c, bc⟩]
          = some (ascii "[" ++ m ++ ascii "] " ++ a ++ ascii "\n", [⟨c, bc⟩])
        ∧ mainB [⟨m, bm⟩, ⟨a, ba⟩, ⟨c, bc⟩]
          = ascii "[" ++ m ++ ascii "] " ++ a ++ ascii "\n"
        ∧ ∀ (d : Frame) (rest : List Frame),
            mainB (⟨m, bm⟩ :: ⟨a, ba⟩ :: ⟨c, bc⟩ :: d :: rest)
              = (ascii "[" ++ m ++ ascii "] " ++ a ++ ascii "\n")
                ++ (ascii "[" ++ c ++ ascii "] " ++ d.payload ++ ascii "\n")
                ++ mainB rest) := by
  refine ⟨mainB_eq_range, mainB_payloads, ?_, ?_⟩
  · intro stream f h
    exact ⟨rfl, mainB_append_singleton stream f h⟩
  · intro m a c bm ba bc
    refine ⟨rfl, ?_, ?_⟩
    · rw [mainB_cons_cons, mainB_singleton, List.append_nil]; rfl
    · intro d rest
      rw [mainB_cons_cons, mainB_cons_cons, ← List.append_assoc]; rfl

/-- C9 at the single-frame message `m` followed by the two-frame message
(`a`, `c`), and at a two-frame stream followed by one unpaired frame. -/
theorem variantB_pairs_by_position_witness :
    mainB [⟨ascii "m", false⟩, ⟨ascii "a", true⟩, ⟨ascii "c", false⟩] = ascii "[m] a\n"
    ∧ mainB ([⟨ascii "a", true⟩, ⟨ascii "c", false⟩] ++ [⟨ascii "m", false⟩])
        = mainB [⟨ascii "a", true⟩, ⟨ascii "c", false⟩] :=
  ⟨((variantB_pairs_by_position.2.2.2 (ascii "m") (ascii "a") (ascii "c")
      false true false).2.1).trans (by decide),
   (variantB_pairs_by_position.2.2.1 [⟨ascii "a", true⟩, ⟨ascii "c", false⟩]
      ⟨ascii "m", false⟩ (by decide)).2⟩

/-! ## Bounds and the printed prefix (Variant A) -/

/-- C8. Under the trusted precondition, a payload size below 1000, the indices
that one iteration of Variant A stores to are exactly `0, 1, ..., size` (the
copy, then the terminator), each of them inside the 1000-byte buffer, and from
every buffer content the iteration has a result: the out-of-bounds branch of
the model is not reached. -/
theorem variantA_in_bounds (f : Frame) (hf : f.payload.length < 1000) :
    writesA f = (List.range (f.payload.length + 1)).map Int.ofNat
    ∧ (∀ i ∈ writesA f, 0 ≤ i ∧ i < 1000)
    ∧ (∀ string : List Byte, string.length = 1000 →
        memcpy string f.payload (toSizeT (toInt f.payload.length)) ≠ none
        ∧ iterA string f ≠ none) := by
  have e1 : toInt f.payload.length = (f.payload.length : Int) := toInt_of_lt (by omega)
  have e2 : toSizeT (f.payload.length : Int) = f.payload.length :=
    toSizeT_natCast (by omega)
  have hw : writesA f = (List.range (f.payload.length + 1)).map Int.ofNat := by
    simp only [writesA, e1, e2, List.range_succ, List.map_append, List.map_cons, List.map_nil,
      Int.ofNat_eq_coe]
  refine ⟨hw, ?_, ?_⟩
  · intro i hi
    rw [hw, List.mem_map] at hi
    obtain ⟨n, hn, rfl⟩ := hi
    rw [List.mem_range] at hn
    simp only [Int.ofNat_eq_coe]
    omega
  · intro string hs
    constructor
    · rw [e1, e2, memcpy_eq (le_refl _) (by omega)]
      simp
    · rw [iterA_eq f hs hf]
      simp

/-- C8 at the frame `hello`. -/
theorem variantA_in_bounds_witness :
    writesA ⟨ascii "hello", false⟩ = [0, 1, 2, 3, 4, 5]
    ∧ iterA string0 ⟨ascii "hello", false⟩ ≠ none :=
  ⟨(variantA_in_bounds ⟨ascii "hello", false⟩ (by decide)).1.trans (by decide),
   ((variantA_in_bounds ⟨ascii "hello", false⟩ (by decide)).2.2 string0 string0_length).2⟩

/-- C10. For a frame with payload size below 1000, the payload text Variant A
writes is the payload up to its first zero byte, followed by the marker (`...`
or newline) in either case. That text is the longest prefix of the payload
holding no zero byte: it is a prefix, it holds no zero byte, and every prefix
of the payload without a zero byte is a prefix of it. It is the whole payload
if and only if the payload holds no zero byte. -/
theorem variantA_prints_up_to_zero (string : List Byte) (f : Frame)
    (hs : string.length = 1000) (hf : f.payload.length < 1000) :
    (∃ s1, iterA string f
        = some (s1, f.payload.takeWhile (fun b => b != 0) ++ marker f.more))
    ∧ f.payload.takeWhile (fun b => b != 0) <+: f.payload
    ∧ (0 : Byte) ∉ f.payload.takeWhile (fun b => b != 0)
    ∧ (∀ q : List Byte, q <+: f.payload → (0 : Byte) ∉ q →
        q <+: f.payload.takeWhile (fun b => b != 0))
    ∧ (f.payload.takeWhile (fun b => b != 0) = f.payload ↔ (0 : Byte) ∉ f.payload) := by
  refine ⟨⟨_, iterA_eq f hs hf⟩, List.takeWhile_prefix _, ?_, ?_, ?_⟩
  · intro h0
    have := List.mem_takeWhile_imp h0
    simp at this
  · intro q hq hq0
    obtain ⟨r, hr⟩ := hq
    rw [← hr, List.takeWhile_append_of_pos]
    · exact List.prefix_append _ _
    · intro a ha
      have : a ≠ 0 := fun h => hq0 (h ▸ ha)
      simpa using this
  · constructor
    · intro h h0
      rw [← h] at h0
      have := List.mem_takeWhile_imp h0
      simp at this
    · exact takeWhile_nonzero_eq_self

/-- C10 at the frame with payload `A`, zero, `B` and `more` set, from the
initial buffer: the text written is `A...`. -/
theorem variantA_prints_up_to_zero_witness :
    ∃ s1, iterA string0 ⟨[65, 0, 66], true⟩ = some (s1, ascii "A...") :=
  (variantA_prints_up_to_zero string0 ⟨[65, 0, 66], true⟩ string0_length
    (by decide)).1

end SubscribeTester
